import Mathlib

/-!
teleop_keyboard: velocity state, clamping and per-cycle emission.

Shallow embedding of `src/slam_gmapping/src/teleop_keyboard.cpp`.

The members `linear_` and `angular_` are C++ `double`s.  They are modelled
bit-faithfully as IEEE 754 binary64 values (sign, biased exponent field,
fraction field, plus infinities and NaN), with `+=` / `-=` as correctly
rounded (round-to-nearest, ties-to-even) addition and subtraction, `<` as the
IEEE comparison and `std::min` / `std::max` as in the C++ standard library
(`double` is taken to be binary64 evaluated in double precision under the
default rounding mode).  NaN payloads are not distinguished.  All arithmetic
is exact integer arithmetic on multiples of `2^-1074`, so every definition
can be evaluated.

The key code returned by `getch()` is an `int`; it is an argument of the
model (`-1` is ncurses' `ERR`, "no key pressed"; 'w' = 119, 'x' = 120,
'a' = 97, 'd' = 100, 's' = 115).  The clock reading of `now()` is an argument
too, and the publisher is modelled by the list of messages it was handed.
-/

namespace Teleop

/-! ## IEEE 754 binary64 -/

/-- A binary64 value: NaN, a signed infinity, or a finite value given by its
sign bit, 11-bit biased exponent field (`0 .. 2046`) and 52-bit fraction. -/
inductive Double where
  | nan : Double
  | inf (neg : Bool) : Double
  | finite (neg : Bool) (expo : Fin 2047) (frac : Fin (2 ^ 52)) : Double
  deriving DecidableEq, Repr

namespace Double

/-- Magnitude of a finite value, in units of `2^-1074` (the smallest
subnormal): `frac` for a subnormal, `(2^52 + frac) * 2^(expo-1)` otherwise. -/
def mag (expo : Fin 2047) (frac : Fin (2 ^ 52)) : Nat :=
  if expo.val = 0 then frac.val else (2 ^ 52 + frac.val) * 2 ^ (expo.val - 1)

/-- A bound, in units of `2^-1074`, above the magnitude of every finite
double (the largest is `(2^53 - 1) * 2^2045`). -/
def infUnits : Nat := 2 ^ 2100

/-- Signed value of a double in units of `2^-1074`; the infinities are sent
beyond every finite value, NaN (never compared through this) to `0`. -/
def toInt : Double → Int
  | nan => 0
  | inf true => -(infUnits : Int)
  | inf false => (infUnits : Int)
  | finite true e f => -(mag e f : Int)
  | finite false e f => (mag e f : Int)

/-- NaN test. -/
def isNaN : Double → Bool
  | nan => true
  | _ => false

/-- IEEE `<`: false as soon as one side is NaN; `-0 < +0` is false. -/
def lt (x y : Double) : Bool :=
  !x.isNaN && !y.isNaN && decide (x.toInt < y.toInt)

/-- IEEE `<=`: false as soon as one side is NaN. -/
def le (x y : Double) : Bool :=
  !x.isNaN && !y.isNaN && decide (x.toInt ≤ y.toInt)

/-- IEEE `==`: false as soon as one side is NaN; `-0 == +0`. -/
def feq (x y : Double) : Bool :=
  !x.isNaN && !y.isNaN && decide (x.toInt = y.toInt)

/-- Binary logarithm by repeated halving; `fuel` bounds the number of
halvings. -/
def log2Aux : Nat → Nat → Nat
  | 0, _ => 0
  | fuel + 1, n => if n < 2 then 0 else log2Aux fuel (n / 2) + 1

/-- Index of the leading one bit: `floor (log2 n)`, and `0` for `n = 0`. -/
def ilog2 (n : Nat) : Nat := log2Aux n n

/-- Encoding of a rounded significand `m1 <= 2^53` whose unit is
`2^(shift - 1074)`: a subnormal below `2^52`, exponent field `shift + 1`
otherwise (one more when rounding carried up to `2^53`), infinity on
overflow of the exponent field. -/
def pack (neg : Bool) (m1 shift : Nat) : Double :=
  if m1 < 2 ^ 52 then
    finite neg ⟨0, by decide⟩ ⟨m1 % 2 ^ 52, Nat.mod_lt _ (by decide)⟩
  else
    let e := if m1 = 2 ^ 53 then shift + 2 else shift + 1
    if h : e < 2047 then
      finite neg ⟨e, h⟩ ⟨(if m1 = 2 ^ 53 then 0 else m1 - 2 ^ 52) % 2 ^ 52, Nat.mod_lt _ (by decide)⟩
    else
      inf neg

/-- Correct rounding (nearest, ties to even) of the positive rational
`(p / q) * 2^-1074` to binary64, with the given sign.  `q` is positive.
The significand keeps 53 bits (`shift` low bits are dropped, none for a
subnormal); the dropped part `r / d` decides the rounding. -/
def roundUnits (neg : Bool) (p q : Nat) : Double :=
  let shift := ilog2 (p / q) - 52
  let d := q * 2 ^ shift
  let m := p / d
  let r := p % d
  pack neg (if d < 2 * r ∨ (2 * r = d ∧ m % 2 = 1) then m + 1 else m) shift

/-- The double denoted by the decimal literal `num / den` (correctly
rounded, as a C++ compiler does). -/
def ofRatio (neg : Bool) (num den : Nat) : Double :=
  if num = 0 then finite neg ⟨0, by decide⟩ ⟨0, by decide⟩
  else roundUnits neg (num * 2 ^ 1074) den

/-- IEEE addition, round-to-nearest-even. -/
def add : Double → Double → Double
  | nan, _ => nan
  | _, nan => nan
  | inf a, inf b => if a = b then inf a else nan
  | inf a, finite _ _ _ => inf a
  | finite _ _ _, inf b => inf b
  | finite sx ex fx, finite sy ey fy =>
    let v : Int := (finite sx ex fx).toInt + (finite sy ey fy).toInt
    if v = 0 then finite (sx && sy) ⟨0, by decide⟩ ⟨0, by decide⟩
    else roundUnits (decide (v < 0)) v.natAbs 1

/-- Sign flip. -/
def neg : Double → Double
  | nan => nan
  | inf s => inf (!s)
  | finite s e f => finite (!s) e f

/-- IEEE subtraction: `x - y = x + (-y)`. -/
def sub (x y : Double) : Double := add x (neg y)

/-- `std::min(a, b)`: `(b < a) ? b : a`. -/
def min (a b : Double) : Double := if lt b a then b else a

/-- `std::max(a, b)`: `(a < b) ? b : a`. -/
def max (a b : Double) : Double := if lt a b then b else a

end Double

open Double

/-- The literal `0.0` (also the `0` of the constructor's initialisers). -/
def c0 : Double := ofRatio false 0 1
/-- The literal `0.1`. -/
def c01 : Double := ofRatio false 1 10
/-- The literal `1.0`. -/
def c1 : Double := ofRatio false 1 1
/-- The literal `0.2`. -/
def c02 : Double := ofRatio false 2 10
/-- The literal `0.9`. -/
def c09 : Double := ofRatio false 9 10
/-- The literal `2.0`. -/
def c2 : Double := ofRatio false 2 1
/-- The expression `-1.0`: unary minus applied to the literal `1.0`. -/
def cm1 : Double := neg c1

/-- The members `linear_` and `angular_` of `TeleopTwistStamped`. -/
structure State where
  linear_ : Double
  angular_ : Double
  deriving DecidableEq, Repr

/-- Member initialisers of the constructor: `linear_(0), angular_(0)`. -/
def init : State := ⟨c0, c0⟩

/-- The `switch (c)` of `process_keyboard`: the key's effect before the
clamp. -/
def applyKey (c : Int) (s : State) : State :=
  if c = 119 then { s with linear_ := add s.linear_ c01 }        -- 'w'
  else if c = 120 then { s with linear_ := sub s.linear_ c01 }   -- 'x'
  else if c = 97 then { s with angular_ := add s.angular_ c01 }  -- 'a'
  else if c = 100 then { s with angular_ := sub s.angular_ c01 } -- 'd'
  else if c = 115 then { linear_ := c0, angular_ := c0 }          -- 's'
  else s

/-- The expression `std::max(std::min(v, 1.0), -1.0)`. -/
def clamp (v : Double) : Double := Double.max (Double.min v c1) cm1

/-- One call of `process_keyboard`, with `c` the result of `getch()`: the
switch, then both members clamped.  (The ncurses display calls that follow
read the members and write to the terminal only.) -/
def process_keyboard (c : Int) (s : State) : State :=
  let s1 := applyKey c s
  { linear_ := clamp s1.linear_, angular_ := clamp s1.angular_ }

/-! ## Messages and the timer callback -/

/-- A `geometry_msgs::msg::Vector3`. -/
structure Vector3 where
  x : Double
  y : Double
  z : Double
  deriving DecidableEq, Repr

/-- A `std_msgs::msg::Header`; `stamp` is the value returned by `now()`. -/
structure Header where
  stamp : Nat
  frame_id : String
  deriving DecidableEq, Repr

/-- A `geometry_msgs::msg::Twist`. -/
structure Twist where
  linear : Vector3
  angular : Vector3
  deriving DecidableEq, Repr

/-- A `geometry_msgs::msg::TwistStamped`. -/
structure TwistStamped where
  header : Header
  twist : Twist
  deriving DecidableEq, Repr

/-- The value-initialised message `geometry_msgs::msg::TwistStamped()`. -/
def TwistStamped.default : TwistStamped :=
  { header := { stamp := 0, frame_id := "" },
    twist := { linear := ⟨c0, c0, c0⟩, angular := ⟨c0, c0, c0⟩ } }

/-- The node: its velocity members and, in order, every message handed to
`publisher_->publish`. -/
structure Node where
  vel : State
  published : List TwistStamped
  deriving DecidableEq, Repr

/-- The node right after construction. -/
def Node.init : Node := { vel := Teleop.init, published := [] }

/-- One call of `timer_callback`; `now` is the clock reading and `c` the key
code `getch()` returns inside `process_keyboard`. -/
def timer_callback (now : Nat) (c : Int) (n : Node) : Node :=
  let vel := process_keyboard c n.vel
  let message := TwistStamped.default
  let message := { message with header := { message.header with stamp := now } }
  let message := { message with header := { message.header with frame_id := "base_link" } }
  let message := { message with twist := { message.twist with
    linear := { message.twist.linear with x := vel.linear_ } } }
  let message := { message with twist := { message.twist with
    angular := { message.twist.angular with z := vel.angular_ } } }
  { vel := vel, published := n.published ++ [message] }

/-- Consecutive timer cycles: each entry is the clock reading and the key
code of one cycle. -/
def runCycles (n : Node) (cycles : List (Nat × Int)) : Node :=
  cycles.foldl (fun n tc => timer_callback tc.1 tc.2 n) n

/-- Consecutive calls of `process_keyboard`, one key code each. -/
def runKeys (s : State) (keys : List Int) : State :=
  keys.foldl (fun s c => process_keyboard c s) s

/-- Both bounds of the velocity range hold: `-1.0 <= v` and `v <= 1.0`. -/
def InRange (v : Double) : Prop := le cm1 v = true ∧ le v c1 = true

instance (v : Double) : Decidable (InRange v) := by
  unfold InRange; infer_instance

/-! ## Sample states -/

/-- A sample state inside the velocity range: `(0.2, 0.9)`. -/
def sample : State := ⟨c02, c09⟩

/-- A sample state outside the velocity range: `(+inf, 2.0)`. -/
def far : State := ⟨inf false, c2⟩

/-- A sample state no run can produce: `(NaN, NaN)`. -/
def lost : State := ⟨nan, nan⟩

/-- A sample state with no turn rate: `(0.9, 0.0)`. -/
def zeroTurn : State := ⟨c09, c0⟩

/-- A sample state at the upper bound: `(1.0, 0.2)`. -/
def top : State := ⟨c1, c02⟩

/-- A sample state from which 'w' then 'x' does come back: `(0.1, 0.0)`. -/
def slow : State := ⟨c01, c0⟩

/-! ## Exact values, in units of `2^-1074` -/

/-- The value `1.0` in units of `2^-1074`. -/
def oneUnits : Nat := 2 ^ 1074

/-- The unit of the significand in the binade of `1.0`, in units of `2^-1074`. -/
def pow1022 : Nat := 2 ^ 1022

/-- The bound `2^-54` (half the spacing of doubles just below `1.0`) in units of
`2^-1074`. -/
def pow1020 : Nat := 2 ^ 1020

/-- The bound `2^-53` in units of `2^-1074`. -/
def pow1021 : Nat := 2 ^ 1021

/-- The value of the literal `0.1` in units of `2^-1074`. -/
def tenthUnits : Nat := 0x1999999999999a * 2 ^ 1018

/-- The value of the literal `0.9` in units of `2^-1074`. -/
def ninthUnits : Nat := 0x1ccccccccccccd * 2 ^ 1021

/-- Table of `linear_` after `k` presses of 'w' from `0.0`, `k = 0 .. 11`:
0.0, 0.1, 0.2, 0.30000000000000004, 0.4, 0.5,
0.6, 0.7, 0.7999999999999999, 0.8999999999999999, 0.9999999999999999, 1.0. -/
def wValues : List Double :=
  [finite false ⟨0, by decide⟩ ⟨0x0, by decide⟩,
   finite false ⟨1019, by decide⟩ ⟨0x999999999999a, by decide⟩,
   finite false ⟨1020, by decide⟩ ⟨0x999999999999a, by decide⟩,
   finite false ⟨1021, by decide⟩ ⟨0x3333333333334, by decide⟩,
   finite false ⟨1021, by decide⟩ ⟨0x999999999999a, by decide⟩,
   finite false ⟨1022, by decide⟩ ⟨0x0, by decide⟩,
   finite false ⟨1022, by decide⟩ ⟨0x3333333333333, by decide⟩,
   finite false ⟨1022, by decide⟩ ⟨0x6666666666666, by decide⟩,
   finite false ⟨1022, by decide⟩ ⟨0x9999999999999, by decide⟩,
   finite false ⟨1022, by decide⟩ ⟨0xccccccccccccc, by decide⟩,
   finite false ⟨1022, by decide⟩ ⟨0xfffffffffffff, by decide⟩,
   finite false ⟨1023, by decide⟩ ⟨0x0, by decide⟩]

end Teleop

open Teleop Teleop.Double


namespace Teleop

/-! ## Concrete values -/

theorem c0_eq : c0 = finite false ⟨0, by decide⟩ ⟨0, by decide⟩ := by decide!
theorem c1_eq : c1 = finite false ⟨1023, by decide⟩ ⟨0, by decide⟩ := by decide!
theorem cm1_eq : cm1 = finite true ⟨1023, by decide⟩ ⟨0, by decide⟩ := by decide!
theorem c01_eq : c01 = finite false ⟨1019, by decide⟩ ⟨0x999999999999a, by decide⟩ := by decide!
theorem c02_eq : c02 = finite false ⟨1020, by decide⟩ ⟨0x999999999999a, by decide⟩ := by decide!
theorem c09_eq : c09 = finite false ⟨1022, by decide⟩ ⟨0xccccccccccccd, by decide⟩ := by decide!
theorem c2_eq : c2 = finite false ⟨1024, by decide⟩ ⟨0, by decide⟩ := by decide!

/-! ## Order facts -/

theorem toInt_c1 : c1.toInt = (oneUnits : Int) := by decide!
theorem toInt_cm1 : cm1.toInt = -(oneUnits : Int) := by decide!

theorem isNaN_eq_false {v : Double} (h : v ≠ nan) : v.isNaN = false := by
  cases v <;> simp_all [isNaN]

theorem le_nan_right (x : Double) : le x nan = false := by
  cases h : x.isNaN <;> simp [le, h, isNaN]

theorem le_nan_left (x : Double) : le nan x = false := by
  simp [le, isNaN]

theorem inRange_ne_nan {v : Double} (h : InRange v) : v ≠ nan := by
  rintro rfl
  have := h.1
  rw [le_nan_right] at this
  exact Bool.noConfusion this

theorem min_of_lt {a b : Double} (h : lt b a = true) : Double.min a b = b := by
  simp [Double.min, h]

theorem min_of_not_lt {a b : Double} (h : lt b a = false) : Double.min a b = a := by
  simp [Double.min, h]

theorem max_of_lt {a b : Double} (h : lt a b = true) : Double.max a b = b := by
  simp [Double.max, h]

theorem max_of_not_lt {a b : Double} (h : lt a b = false) : Double.max a b = a := by
  simp [Double.max, h]

theorem le_c1_c1 : le c1 c1 = true := by decide!
theorem isNaN_c1 : c1.isNaN = false := by decide!
theorem isNaN_cm1 : cm1.isNaN = false := by decide!

/-- On a value that is not NaN the clamp lands in `[-1.0, 1.0]`. -/
theorem clamp_inRange {v : Double} (h : v ≠ nan) : InRange (clamp v) := by
  have hv := isNaN_eq_false h
  have h1 := isNaN_c1
  have hm1 := isNaN_cm1
  have t1 := toInt_c1
  have tm1 := toInt_cm1
  unfold clamp
  cases a : lt c1 v
  · rw [min_of_not_lt a]
    cases b : lt v cm1
    · rw [max_of_not_lt b]
      simp only [lt, h1, hm1, hv, t1, tm1, Bool.not_false, Bool.true_and,
        decide_eq_false_iff_not] at a b
      simp only [InRange, le, h1, hm1, hv, t1, tm1, Bool.not_false, Bool.true_and,
        decide_eq_true_eq]
      omega
    · rw [max_of_lt b]
      decide!
  · rw [min_of_lt a]
    decide!

/-- On a value already in `[-1.0, 1.0]` the clamp changes nothing. -/
theorem clamp_of_inRange {v : Double} (h : InRange v) : clamp v = v := by
  have hv := isNaN_eq_false (inRange_ne_nan h)
  have h1 := isNaN_c1
  have hm1 := isNaN_cm1
  have t1 := toInt_c1
  have tm1 := toInt_cm1
  unfold InRange at h
  simp only [le, h1, hm1, hv, t1, tm1, Bool.not_false, Bool.true_and,
    decide_eq_true_eq] at h
  have a : lt c1 v = false := by
    simp only [lt, h1, hm1, hv, t1, tm1, Bool.not_false, Bool.true_and,
      decide_eq_false_iff_not]
    omega
  have b : lt v cm1 = false := by
    simp only [lt, h1, hm1, hv, t1, tm1, Bool.not_false, Bool.true_and,
      decide_eq_false_iff_not]
    omega
  unfold clamp
  rw [min_of_not_lt a, max_of_not_lt b]

/-! ## Addition never invents a NaN -/

theorem roundUnits_ne_nan (s : Bool) (p q : Nat) : roundUnits s p q ≠ nan := by
  unfold roundUnits pack
  simp only []
  split_ifs <;> simp

theorem add_finite_ne_nan {x : Double} (h : x ≠ nan) (s : Bool) (e : Fin 2047)
    (f : Fin (2 ^ 52)) : add x (finite s e f) ≠ nan := by
  cases x with
  | nan => exact absurd rfl h
  | inf a => simp [add]
  | finite sx ex fx =>
    simp only [add]
    split_ifs
    · simp
    · exact roundUnits_ne_nan _ _ _

theorem add_c01_ne_nan {x : Double} (h : x ≠ nan) : add x c01 ≠ nan := by
  rw [c01_eq]
  exact add_finite_ne_nan h _ _ _

theorem sub_c01_ne_nan {x : Double} (h : x ≠ nan) : sub x c01 ≠ nan := by
  rw [sub, c01_eq]
  exact add_finite_ne_nan h _ _ _

theorem c0_ne_nan : c0 ≠ nan := by decide!

theorem applyKey_linear_ne_nan (c : Int) {s : State} (h : s.linear_ ≠ nan) :
    (applyKey c s).linear_ ≠ nan := by
  unfold applyKey
  split_ifs
  · exact add_c01_ne_nan h
  · exact sub_c01_ne_nan h
  · exact h
  · exact h
  · exact c0_ne_nan
  · exact h

theorem applyKey_angular_ne_nan (c : Int) {s : State} (h : s.angular_ ≠ nan) :
    (applyKey c s).angular_ ≠ nan := by
  unfold applyKey
  split_ifs
  · exact h
  · exact h
  · exact add_c01_ne_nan h
  · exact sub_c01_ne_nan h
  · exact c0_ne_nan
  · exact h

theorem process_keyboard_linear (c : Int) (s : State) :
    (process_keyboard c s).linear_ = clamp (applyKey c s).linear_ := by
  simp only [process_keyboard]

theorem process_keyboard_angular (c : Int) (s : State) :
    (process_keyboard c s).angular_ = clamp (applyKey c s).angular_ := by
  simp only [process_keyboard]

theorem process_keyboard_inRange (c : Int) {s : State} (hl : s.linear_ ≠ nan)
    (ha : s.angular_ ≠ nan) :
    InRange (process_keyboard c s).linear_ ∧ InRange (process_keyboard c s).angular_ := by
  rw [process_keyboard_linear, process_keyboard_angular]
  exact ⟨clamp_inRange (applyKey_linear_ne_nan c hl),
    clamp_inRange (applyKey_angular_ne_nan c ha)⟩

theorem runKeys_append (s : State) (ks : List Int) (c : Int) :
    runKeys s (ks ++ [c]) = process_keyboard c (runKeys s ks) := by
  simp [runKeys, List.foldl_append]

theorem inRange_c0 : InRange c0 := by decide!

theorem runKeys_init_inRange (keys : List Int) :
    InRange (runKeys init keys).linear_ ∧ InRange (runKeys init keys).angular_ := by
  induction keys using List.reverseRecOn with
  | nil => exact ⟨inRange_c0, inRange_c0⟩
  | append_singleton ks c ih =>
    rw [runKeys_append]
    exact process_keyboard_inRange c (inRange_ne_nan ih.1) (inRange_ne_nan ih.2)

/-! ## Repeated presses of one key -/

theorem runKeys_replicate_succ (s : State) (c : Int) (n : Nat) :
    runKeys s (List.replicate (n + 1) c) = process_keyboard c (runKeys s (List.replicate n c)) := by
  rw [List.replicate_succ', runKeys_append]

theorem le_trans_double {a b c : Double} (hab : le a b = true) (hbc : le b c = true) :
    le a c = true := by
  simp only [le, Bool.and_eq_true, Bool.not_eq_true', decide_eq_true_eq] at hab hbc ⊢
  exact ⟨⟨hab.1.1, hbc.1.2⟩, by omega⟩

theorem le_refl_of_ne_nan {a : Double} (h : a ≠ nan) : le a a = true := by
  simp [le, isNaN_eq_false h]

theorem w_fixed_at_one : process_keyboard 119 ⟨c1, c0⟩ = ⟨c1, c0⟩ := by decide!

theorem wValues_step : ∀ k < 11, process_keyboard 119 ⟨wValues.getD k c0, c0⟩ =
    ⟨wValues.getD (k + 1) c0, c0⟩ := by decide!

theorem wValues_le : ∀ k < 11, le (wValues.getD k c0) (wValues.getD (k + 1) c0) = true := by
  decide!

theorem wValues_first : (⟨wValues.getD 0 c0, c0⟩ : State) = init := by decide!

theorem wValues_last : wValues.getD 11 c0 = c1 := by decide!

theorem w_upto_eleven (k : Nat) (h : k ≤ 11) :
    runKeys init (List.replicate k 119) = ⟨wValues.getD k c0, c0⟩ := by
  induction k with
  | zero => rw [wValues_first]; simp only [List.replicate_zero, runKeys, List.foldl_nil]
  | succ j ih => rw [runKeys_replicate_succ, ih (by omega), wValues_step j (by omega)]

theorem w_eleven : runKeys init (List.replicate 11 119) = ⟨c1, c0⟩ := by
  rw [w_upto_eleven 11 (by decide), wValues_last]

theorem w_saturated (n : Nat) (h : 11 ≤ n) : runKeys init (List.replicate n 119) = ⟨c1, c0⟩ := by
  induction n with
  | zero => omega
  | succ k ih =>
    rcases Nat.lt_or_ge k 11 with hk | hk
    · have : k = 10 := by omega
      subst this
      exact w_eleven
    · rw [runKeys_replicate_succ, ih hk, w_fixed_at_one]

theorem w_step_le (n : Nat) :
    le (runKeys init (List.replicate n 119)).linear_
      (runKeys init (List.replicate (n + 1) 119)).linear_ = true := by
  rcases Nat.lt_or_ge n 11 with hn | hn
  · rw [w_upto_eleven n (by omega), w_upto_eleven (n + 1) (by omega)]
    simp only [wValues_le n hn]
  · rw [w_saturated n hn, w_saturated (n + 1) (by omega)]
    simp only [le_c1_c1]

theorem w_angular (n : Nat) : (runKeys init (List.replicate n 119)).angular_ = c0 := by
  rcases Nat.lt_or_ge n 11 with hn | hn
  · rw [w_upto_eleven n (by omega)]
  · rw [w_saturated n hn]

theorem w_monotone (m n : Nat) (h : m ≤ n) :
    le (runKeys init (List.replicate m 119)).linear_
      (runKeys init (List.replicate n 119)).linear_ = true := by
  induction n with
  | zero =>
    have : m = 0 := by omega
    subst this
    exact le_refl_of_ne_nan (inRange_ne_nan (runKeys_init_inRange _).1)
  | succ k ih =>
    rcases Nat.lt_or_ge m (k + 1) with hk | hk
    · exact le_trans_double (ih (by omega)) (w_step_le k)
    · have : m = k + 1 := by omega
      subst this
      exact le_refl_of_ne_nan (inRange_ne_nan (runKeys_init_inRange _).1)

/-! ## Zero and the 'a' / 'd' pair -/

theorem mag_eq_zero {e : Fin 2047} {f : Fin (2 ^ 52)} (h : mag e f = 0) :
    e = ⟨0, by decide⟩ ∧ f = ⟨0, by decide⟩ := by
  unfold mag at h
  split_ifs at h with he
  · exact ⟨Fin.ext he, Fin.ext h⟩
  · have hp : 0 < 2 ^ (e.val - 1) := Nat.two_pow_pos _
    have : 0 < (2 ^ 52 + f.val) * 2 ^ (e.val - 1) := Nat.mul_pos (by omega) hp
    omega

theorem toInt_c0 : c0.toInt = 0 := by decide!

theorem infUnits_pos : 0 < infUnits := by decide!

/-- A value that compares equal to `0.0` is `+0.0` or `-0.0`. -/
theorem eq_zero_of_feq {v : Double} (h : feq v c0 = true) :
    ∃ b, v = finite b ⟨0, by decide⟩ ⟨0, by decide⟩ := by
  simp only [feq, toInt_c0, Bool.and_eq_true, Bool.not_eq_true', decide_eq_true_eq] at h
  obtain ⟨⟨hv, -⟩, hz⟩ := h
  cases v with
  | nan => simp [isNaN] at hv
  | inf b =>
    have hpos := infUnits_pos
    cases b <;> simp only [toInt] at hz <;> omega
  | finite b e f =>
    have hm : mag e f = 0 := by
      cases b <;> simp only [toInt] at hz <;> omega
    obtain ⟨he, hf⟩ := mag_eq_zero hm
    exact ⟨b, by rw [he, hf]⟩

theorem zero_add_c01 (b : Bool) : add (finite b ⟨0, by decide⟩ ⟨0, by decide⟩) c01 = c01 := by
  cases b <;> decide!

theorem clamp_c01 : clamp c01 = c01 := by decide!

theorem c01_sub_c01 : sub c01 c01 = c0 := by decide!

/-! ## The timer callback -/

theorem timer_callback_vel (now : Nat) (c : Int) (n : Node) :
    (timer_callback now c n).vel = process_keyboard c n.vel := by
  simp only [timer_callback]

theorem timer_callback_published (now : Nat) (c : Int) (n : Node) :
    (timer_callback now c n).published = n.published ++
      [{ header := { stamp := now, frame_id := "base_link" },
         twist := { linear := ⟨(process_keyboard c n.vel).linear_, c0, c0⟩,
                    angular := ⟨c0, c0, (process_keyboard c n.vel).angular_⟩ } }] := by
  simp only [timer_callback, TwistStamped.default]

theorem runCycles_nil (n : Node) : runCycles n [] = n := by
  simp only [runCycles, List.foldl_nil]

theorem runCycles_cons (n : Node) (tc : Nat × Int) (cs : List (Nat × Int)) :
    runCycles n (tc :: cs) = runCycles (timer_callback tc.1 tc.2 n) cs := by
  simp only [runCycles, List.foldl_cons]

theorem w_once : process_keyboard 119 init = ⟨c01, c0⟩ := by decide!
theorem w_twice : process_keyboard 119 ⟨c01, c0⟩ = ⟨c02, c0⟩ := by decide!
theorem w_w_a : process_keyboard 97 ⟨c02, c0⟩ = ⟨c02, c01⟩ := by decide!

theorem idle_init : process_keyboard (-1) init = init := by decide!

theorem runCycles_idle (ts : List Nat) (n : Node) (h : n.vel = init) :
    (runCycles n (ts.map (fun t => (t, (-1 : Int))))).published =
      n.published ++ ts.map (fun t =>
        { header := { stamp := t, frame_id := "base_link" },
          twist := { linear := ⟨c0, c0, c0⟩, angular := ⟨c0, c0, c0⟩ } }) := by
  induction ts generalizing n with
  | nil => simp only [List.map_nil, runCycles_nil, List.append_nil]
  | cons t ts ih =>
    rw [List.map_cons, runCycles_cons, ih _ (by rw [timer_callback_vel, h, idle_init]),
      timer_callback_published, h, idle_init]
    simp only [init, List.append_assoc, List.singleton_append, List.map_cons]

/-! ## Rounding just above `1.0` -/

theorem log2Aux_eq (k : Nat) : ∀ fuel n : Nat, 2 ^ k ≤ n → n < 2 ^ (k + 1) → k ≤ fuel →
    log2Aux fuel n = k := by
  induction k with
  | zero =>
    intro fuel n h1 h2 _
    cases fuel with
    | zero => rfl
    | succ f =>
      have : n < 2 := by simpa using h2
      simp only [log2Aux, this, if_true]
  | succ k ih =>
    intro fuel n h1 h2 hf
    cases fuel with
    | zero => omega
    | succ f =>
      have hk : 2 ≤ 2 ^ (k + 1) := by
        have := Nat.one_le_two_pow (n := k)
        rw [Nat.pow_succ]; omega
      have hn : ¬ n < 2 := by omega
      simp only [log2Aux, hn, if_false]
      have := ih f (n / 2) (by rw [Nat.pow_succ] at h1; omega)
        (by rw [Nat.pow_succ] at h2; omega) (by omega)
      omega

theorem ilog2_eq {n k : Nat} (h1 : 2 ^ k ≤ n) (h2 : n < 2 ^ (k + 1)) : ilog2 n = k := by
  unfold ilog2
  exact log2Aux_eq k n n h1 h2 (by have := Nat.lt_two_pow k; omega)


theorem oneUnits_eq : oneUnits = 2 ^ 1074 := by unfold oneUnits; rfl

theorem pack_normal (neg : Bool) {m1 shift : Nat} (h1 : 2 ^ 52 ≤ m1) (h2 : m1 < 2 ^ 53)
    (h : shift + 1 < 2047) :
    pack neg m1 shift = finite neg ⟨shift + 1, h⟩ ⟨m1 - 2 ^ 52, by omega⟩ := by
  have a : ¬ m1 < 2 ^ 52 := by omega
  have b : ¬ m1 = 2 ^ 53 := by omega
  have c : (m1 - 2 ^ 52) % 2 ^ 52 = m1 - 2 ^ 52 := Nat.mod_eq_of_lt (by omega)
  simp only [pack, a, b, if_false, h, dite_true, c]

/-- Rounding of an exact value in `[1.0, 1.125)`: the result is in the binade of `1.0`. -/
theorem roundUnits_near_one (p : Nat) (h1 : oneUnits ≤ p) (h2 : 8 * p < 9 * oneUnits) :
    ∃ g : Fin (2 ^ 52), roundUnits false p 1 = finite false ⟨1023, by decide⟩ g := by
  have hlog : ilog2 (p / 1) = 1074 := by
    rw [Nat.div_one]
    apply ilog2_eq
    · rw [← oneUnits_eq]; exact h1
    · have : 2 ^ (1074 + 1) = 2 * oneUnits := by decide!
      rw [this]; omega
  have hd : 1 * 2 ^ (1074 - 52) = pow1022 := by decide!
  have hone : oneUnits = 2 ^ 52 * pow1022 := by decide!
  have hpos : 0 < pow1022 := by decide!
  unfold roundUnits
  simp only [hlog, hd]
  have hm1 : 2 ^ 52 ≤ p / pow1022 := by
    rw [Nat.le_div_iff_mul_le hpos, ← hone]; exact h1
  have hm2 : p / pow1022 < 2 ^ 52 + 2 ^ 49 := by
    rw [Nat.div_lt_iff_lt_mul hpos]
    have : (2 ^ 52 + 2 ^ 49) * pow1022 = oneUnits + 2 ^ 49 * pow1022 := by
      rw [hone]; ring
    rw [this]
    rw [hone] at h2 ⊢
    omega
  generalize p / pow1022 = m at hm1 hm2
  generalize p % pow1022 = r
  split_ifs
  · exact ⟨_, pack_normal false (by omega) (by omega) (by decide)⟩
  · exact ⟨_, pack_normal false (by omega) (by omega) (by decide)⟩


theorem isNaN_finite (s : Bool) (e : Fin 2047) (f : Fin (2 ^ 52)) :
    (finite s e f).isNaN = false := rfl

theorem min_near_one (p : Nat) (h1 : oneUnits ≤ p) (h2 : 8 * p < 9 * oneUnits) :
    Double.min (roundUnits false p 1) c1 = c1 := by
  obtain ⟨g, hg⟩ := roundUnits_near_one p h1 h2
  rw [hg]
  by_cases hz : g.val = 0
  · have : g = ⟨0, by decide⟩ := Fin.ext hz
    rw [this, ← c1_eq]
    exact min_of_not_lt (by decide!)
  · apply min_of_lt
    have hone : oneUnits = 2 ^ 52 * pow1022 := by decide!
    have hpos : 0 < pow1022 := by decide!
    have hp : 2 ^ ((⟨1023, by decide⟩ : Fin 2047).val - 1) = pow1022 := by decide!
    have hmag : mag ⟨1023, by decide⟩ g = (2 ^ 52 + g.val) * pow1022 := by
      unfold mag
      rw [if_neg (by decide), hp]
    have hlt : 2 ^ 52 * pow1022 < (2 ^ 52 + g.val) * pow1022 :=
      Nat.mul_lt_mul_of_pos_right (by omega) hpos
    unfold lt
    rw [isNaN_c1, toInt_c1, hone]
    simp only [isNaN, toInt, hmag, Bool.not_false, Bool.true_and, decide_eq_true_eq]
    exact_mod_cast hlt

theorem add_pos_finite (e e1 : Fin 2047) (f f1 : Fin (2 ^ 52)) (h : mag e f + mag e1 f1 ≠ 0) :
    add (finite false e f) (finite false e1 f1) = roundUnits false (mag e f + mag e1 f1) 1 := by
  have hv : (mag e f : Int) + (mag e1 f1 : Int) = ((mag e f + mag e1 f1 : Nat) : Int) := by
    push_cast; rfl
  have h0 : ¬ ((mag e f + mag e1 f1 : Nat) : Int) = 0 := by exact_mod_cast h
  have hneg : ¬ ((mag e f + mag e1 f1 : Nat) : Int) < 0 := by omega
  simp only [add, toInt, hv, h0, if_false, hneg, decide_False, Int.natAbs_ofNat]

theorem toInt_c01 : c01.toInt = (tenthUnits : Int) := by decide!
theorem toInt_c09 : c09.toInt = (ninthUnits : Int) := by decide!
theorem mag_c01 : mag ⟨1019, by decide⟩ ⟨0x999999999999a, by decide⟩ = tenthUnits := by decide!
theorem tenth_small : 8 * tenthUnits < oneUnits := by decide!
theorem ninth_tenth : oneUnits ≤ ninthUnits + tenthUnits := by decide!
theorem one_lt_inf : oneUnits < infUnits := by decide!
theorem max_c1_cm1 : Double.max c1 cm1 = c1 := by decide!
theorem isNaN_c09 : c09.isNaN = false := by decide!

/-- From a linear value above `0.9` (and at most `1.0`) a 'w' press clamps to `1.0`. -/
theorem clamp_add_above (l : Double) (h1 : lt c09 l = true) (h2 : le l c1 = true) :
    clamp (add l c01) = c1 := by
  have t9 := toInt_c09
  have t1 := toInt_c1
  have hts := tenth_small
  have hnt := ninth_tenth
  have hinf := one_lt_inf
  simp only [lt, le, isNaN_c09, isNaN_c1, Bool.not_false, Bool.true_and, Bool.and_true,
    Bool.and_eq_true, Bool.not_eq_true', decide_eq_true_eq, t9, t1] at h1 h2
  cases l with
  | nan => simp [isNaN] at h1
  | inf b =>
    cases b <;> simp only [toInt] at h1 h2 <;> omega
  | finite sg e f =>
    cases sg with
    | true => simp only [toInt] at h1 h2; omega
    | false =>
      simp only [toInt] at h1 h2
      have hne : mag e f + mag ⟨1019, by decide⟩ ⟨0x999999999999a, by decide⟩ ≠ 0 := by omega
      rw [c01_eq, add_pos_finite e _ f _ hne, mag_c01]
      unfold clamp
      rw [min_near_one _ (by omega) (by omega), max_c1_cm1]


theorem clamp_one_sub_tenth : clamp (sub c1 c01) = c09 := by decide!
theorem lt_c09_c1 : lt c09 c1 = true := by decide!

theorem lt_of_not_le {a b : Double} (ha : a ≠ nan) (hb : b ≠ nan) (h : le a b = false) :
    lt b a = true := by
  simp only [le, lt, isNaN_eq_false ha, isNaN_eq_false hb, Bool.not_false, Bool.true_and,
    decide_eq_false_iff_not, decide_eq_true_eq] at h ⊢
  omega

theorem lt_irrefl_double (a : Double) : lt a a = false := by
  simp [lt]

theorem c09_ne_nan : c09 ≠ nan := by decide!

/-! ## Rounding below `2.0`: nearest multiple of the spacing -/

theorem nearest_le {d R v B : Int} (hR : d ∣ R) (hB : d ∣ B)
    (h1 : 2 * R ≤ 2 * v + d) (hv : v ≤ B) : R ≤ B := by
  by_contra h
  push_neg at h
  have hdvd : d ∣ R - B := Int.dvd_sub hR hB
  have : d ≤ R - B := Int.le_of_dvd (by omega) hdvd
  omega

theorem nearest_ge {d R v B : Int} (hR : d ∣ R) (hB : d ∣ B)
    (h2 : 2 * v ≤ 2 * R + d) (hv : B ≤ v) : B ≤ R := by
  by_contra h
  push_neg at h
  have hdvd : d ∣ B - R := Int.dvd_sub hB hR
  have : d ≤ B - R := Int.le_of_dvd (by omega) hdvd
  omega

theorem ilog2_spec {p : Nat} (hp : 0 < p) : 2 ^ ilog2 p ≤ p ∧ p < 2 ^ (ilog2 p + 1) := by
  have h1 : 2 ^ Nat.log 2 p ≤ p := Nat.pow_log_le_self 2 (by omega)
  have h2 : p < 2 ^ (Nat.log 2 p + 1) := Nat.lt_pow_succ_log_self (by decide) p
  rw [ilog2_eq h1 h2]
  exact ⟨h1, h2⟩


theorem pack_spec (sg : Bool) {m1 s : Nat} (hm : m1 ≤ 2 ^ 53) (hs : s ≤ 1022)
    (hsub : m1 < 2 ^ 52 → s = 0) :
    ∃ e f, pack sg m1 s = finite sg e f ∧ mag e f = m1 * 2 ^ s := by
  by_cases h1 : m1 < 2 ^ 52
  · have hs0 := hsub h1
    subst hs0
    refine ⟨⟨0, by decide⟩, ⟨m1 % 2 ^ 52, Nat.mod_lt _ (by decide)⟩, ?_, ?_⟩
    · simp only [pack, h1, if_true]
    · simp only [mag, if_true, Nat.mod_eq_of_lt h1, pow_zero, mul_one]
  · by_cases h2 : m1 = 2 ^ 53
    · have he : s + 2 < 2047 := by omega
      refine ⟨⟨s + 2, he⟩, ⟨0, by decide⟩, ?_, ?_⟩
      · have h3 : ¬ (2 : Nat) ^ 53 < 2 ^ 52 := by decide
        simp only [pack, h2, h3, if_false, if_true, he, dite_true, Nat.zero_mod]
      · have hne : ¬ s + 2 = 0 := by omega
        have hsub1 : s + 2 - 1 = s + 1 := by omega
        simp only [mag, hne, if_false, hsub1, h2, add_zero]
        rw [pow_succ]
        ring
    · have he : s + 1 < 2047 := by omega
      refine ⟨⟨s + 1, he⟩, ⟨m1 - 2 ^ 52, by omega⟩, pack_normal sg (by omega) (by omega) he, ?_⟩
      have hne : ¬ s + 1 = 0 := by omega
      have hsub1 : s + 1 - 1 = s := by omega
      have hm1 : 2 ^ 52 + (m1 - 2 ^ 52) = m1 := by omega
      simp only [mag, hne, if_false, hsub1, hm1]

theorem log_bounds {k n p one : Nat} (hone : one = 2 ^ n) (h1 : 2 ^ k ≤ p)
    (h2 : p < 2 ^ (k + 1)) (hlt : p < 2 * one) :
    k < n + 1 ∧ (p < one → k < n) ∧ (one ≤ p → n < k + 1) := by
  subst hone
  refine ⟨?_, fun h => ?_, fun h => ?_⟩
  · have : 2 ^ k < 2 ^ (n + 1) := by rw [pow_succ]; omega
    exact (Nat.pow_lt_pow_iff_right (by decide)).mp this
  · exact (Nat.pow_lt_pow_iff_right (by decide)).mp (lt_of_le_of_lt h1 h)
  · exact (Nat.pow_lt_pow_iff_right (by decide)).mp (lt_of_le_of_lt h h2)

/-- What rounding an exact magnitude `p` below `2.0` returns: a finite double whose
magnitude is a multiple of the spacing `2^s` nearest to `p`. -/
theorem roundUnits_spec (sg : Bool) {p : Nat} (hp : 0 < p) (hlt : p < 2 * oneUnits) :
    ∃ e f s, roundUnits sg p 1 = finite sg e f ∧ 2 ^ s ∣ mag e f ∧
      2 * mag e f ≤ 2 * p + 2 ^ s ∧ 2 * p ≤ 2 * mag e f + 2 ^ s ∧
      s ≤ 1022 ∧ (p < oneUnits → s ≤ 1021) ∧ (oneUnits ≤ p → s = 1022) := by
  obtain ⟨hk1, hk2⟩ := ilog2_spec hp
  generalize hkdef : ilog2 p = k at hk1 hk2
  obtain ⟨hk, hklo, hkhi⟩ := log_bounds oneUnits_eq hk1 hk2 hlt
  have hd : 0 < 2 ^ (k - 52) := Nat.two_pow_pos _
  have hm_lt : p / 2 ^ (k - 52) < 2 ^ 53 := by
    rw [Nat.div_lt_iff_lt_mul hd, ← pow_add]
    exact lt_of_lt_of_le hk2 (Nat.pow_le_pow_right (by decide) (by omega))
  have hm_ge : 52 ≤ k → 2 ^ 52 ≤ p / 2 ^ (k - 52) := by
    intro h
    rw [Nat.le_div_iff_mul_le hd, ← pow_add]
    have : 52 + (k - 52) = k := by omega
    rw [this]
    exact hk1
  have hdm := Nat.div_add_mod p (2 ^ (k - 52))
  have hr := Nat.mod_lt p hd
  unfold roundUnits
  simp only [Nat.div_one, one_mul, hkdef]
  have hsle : k - 52 ≤ 1022 := by omega
  have hsub : ∀ m1, p / 2 ^ (k - 52) ≤ m1 → m1 < 2 ^ 52 → k - 52 = 0 := by
    intro m1 h1 h2
    by_contra h3
    have := hm_ge (by omega)
    omega
  have hfin : ∀ m1, p / 2 ^ (k - 52) ≤ m1 → m1 ≤ 2 ^ 53 →
      2 * (m1 * 2 ^ (k - 52)) ≤ 2 * p + 2 ^ (k - 52) →
      2 * p ≤ 2 * (m1 * 2 ^ (k - 52)) + 2 ^ (k - 52) →
      ∃ e f s, pack sg m1 (k - 52) = finite sg e f ∧ 2 ^ s ∣ mag e f ∧
        2 * mag e f ≤ 2 * p + 2 ^ s ∧ 2 * p ≤ 2 * mag e f + 2 ^ s ∧
        s ≤ 1022 ∧ (p < oneUnits → s ≤ 1021) ∧ (oneUnits ≤ p → s = 1022) := by
    intro m1 h1 h2 h3 h4
    obtain ⟨e, f, hpk, hmag⟩ := pack_spec sg h2 hsle (hsub m1 h1)
    refine ⟨e, f, k - 52, hpk, ?_, ?_, ?_, hsle, fun h => ?_, fun h => ?_⟩
    · rw [hmag]; exact Dvd.intro_left _ rfl
    · rw [hmag]; exact h3
    · rw [hmag]; exact h4
    · have := hklo h; omega
    · have := hkhi h; omega
  generalize hmdef : p / 2 ^ (k - 52) = m at hm_lt hm_ge hdm hfin
  generalize hrdef : p % 2 ^ (k - 52) = r at hdm hr
  generalize 2 ^ (k - 52) = d at hd hdm hr hfin ⊢
  split_ifs with hup
  · apply hfin (m + 1) (by omega) (by omega)
    · have : (m + 1) * d = d * m + d := by ring
      rw [this]
      rcases hup with h | ⟨h, -⟩ <;> omega
    · have : (m + 1) * d = d * m + d := by ring
      rw [this]
      omega
  · apply hfin m (by omega) (by omega)
    · have : m * d = d * m := by ring
      rw [this]
      omega
    · have : m * d = d * m := by ring
      rw [this]
      push_neg at hup
      omega


theorem mag_zero : mag ⟨0, by decide⟩ ⟨0, by decide⟩ = 0 := by decide

theorem oneUnits_pos : 0 < oneUnits := by decide!

/-- What adding two finite doubles returns when the exact sum `v` is below `2.0` in
magnitude: a finite double whose value is a multiple of the spacing `2^s` nearest to `v`. -/
theorem add_finite_spec (sx sy : Bool) (ex ey : Fin 2047) (fx fy : Fin (2 ^ 52))
    (hlo : -(2 * (oneUnits : Int)) < (finite sx ex fx).toInt + (finite sy ey fy).toInt)
    (hhi : (finite sx ex fx).toInt + (finite sy ey fy).toInt < 2 * (oneUnits : Int)) :
    ∃ sr er fr s, add (finite sx ex fx) (finite sy ey fy) = finite sr er fr ∧
      ((2 ^ s : Nat) : Int) ∣ (finite sr er fr).toInt ∧
      2 * (finite sr er fr).toInt ≤
        2 * ((finite sx ex fx).toInt + (finite sy ey fy).toInt) + ((2 ^ s : Nat) : Int) ∧
      2 * ((finite sx ex fx).toInt + (finite sy ey fy).toInt) ≤
        2 * (finite sr er fr).toInt + ((2 ^ s : Nat) : Int) ∧
      s ≤ 1022 ∧
      (-(oneUnits : Int) < (finite sx ex fx).toInt + (finite sy ey fy).toInt →
        (finite sx ex fx).toInt + (finite sy ey fy).toInt < (oneUnits : Int) → s ≤ 1021) ∧
      ((oneUnits : Int) ≤ (finite sx ex fx).toInt + (finite sy ey fy).toInt ∨
        (finite sx ex fx).toInt + (finite sy ey fy).toInt ≤ -(oneUnits : Int) → s = 1022) := by
  have hone := oneUnits_pos
  simp only [add]
  generalize (finite sx ex fx).toInt + (finite sy ey fy).toInt = v at hlo hhi ⊢
  by_cases hv : v = 0
  · subst hv
    refine ⟨sx && sy, ⟨0, by decide⟩, ⟨0, by decide⟩, 0, by simp only [if_true], ?_, ?_, ?_,
      by decide, fun _ _ => by decide, fun h => by omega⟩
    · cases (sx && sy) <;> simp only [toInt, mag_zero] <;> decide
    · cases (sx && sy) <;> simp only [toInt, mag_zero] <;> decide
    · cases (sx && sy) <;> simp only [toInt, mag_zero] <;> decide
  · have hp : 0 < v.natAbs := Int.natAbs_pos.mpr hv
    have hlt : v.natAbs < 2 * oneUnits := by omega
    obtain ⟨e, f, s, hr, hdvd, h1, h2, hs, hs1, hs2⟩ := roundUnits_spec (decide (v < 0)) hp hlt
    refine ⟨decide (v < 0), e, f, s, by simp only [hv, if_false, hr], ?_, ?_, ?_, hs,
      fun ha hb => hs1 (by omega), fun h => hs2 (by omega)⟩
    · have hd : ((2 ^ s : Nat) : Int) ∣ (mag e f : Int) := Int.natCast_dvd_natCast.mpr hdvd
      by_cases hneg : v < 0
      · simp only [hneg, decide_True, toInt]
        exact (Int.dvd_neg).mpr hd
      · simp only [hneg, decide_False, toInt]
        exact hd
    · by_cases hneg : v < 0
      · simp only [hneg, decide_True, toInt]
        omega
      · simp only [hneg, decide_False, toInt]
        omega
    · by_cases hneg : v < 0
      · simp only [hneg, decide_True, toInt]
        omega
      · simp only [hneg, decide_False, toInt]
        omega


theorem pow1020_pos : 0 < pow1020 := by decide!
theorem pow1020_lt_one : pow1020 < oneUnits := by decide!
theorem pow1021_eq : pow1021 = 2 * pow1020 := by decide!

theorem pow_le_double {s n : Nat} (h : s ≤ n + 1) : 2 ^ s ≤ 2 * 2 ^ n := by
  have h1 : 2 ^ s ≤ 2 ^ (n + 1) := Nat.pow_le_pow_right (by decide) h
  rw [pow_succ] at h1
  omega

theorem spacing_facts {s : Nat} (hs : s ≤ 1022) :
    0 < 2 ^ s ∧ 2 ^ s ∣ oneUnits ∧ (s ≤ 1021 → 2 ^ s ≤ 2 * pow1020) ∧
      (s = 1022 → 2 ^ s = 4 * pow1020) := by
  refine ⟨Nat.two_pow_pos s, ?_, fun h => ?_, fun h => ?_⟩
  · rw [oneUnits_eq]
    exact pow_dvd_pow 2 (by omega)
  · unfold pow1020
    exact pow_le_double (by omega)
  · subst h
    unfold pow1020
    decide!

/-- Adding two finite doubles whose exact sum `v` is at most `1.0 + 2^-54` in magnitude:
the result is finite, at most `1.0` in magnitude, and within `2^-54` of `v`. -/
theorem add_near (sx sy : Bool) (ex ey : Fin 2047) (fx fy : Fin (2 ^ 52))
    (hlo : -((oneUnits : Int) + pow1020) ≤ (finite sx ex fx).toInt + (finite sy ey fy).toInt)
    (hhi : (finite sx ex fx).toInt + (finite sy ey fy).toInt ≤ (oneUnits : Int) + pow1020) :
    ∃ sr er fr, add (finite sx ex fx) (finite sy ey fy) = finite sr er fr ∧
      -(oneUnits : Int) ≤ (finite sr er fr).toInt ∧ (finite sr er fr).toInt ≤ (oneUnits : Int) ∧
      (finite sr er fr).toInt - ((finite sx ex fx).toInt + (finite sy ey fy).toInt) ≤ pow1020 ∧
      ((finite sx ex fx).toInt + (finite sy ey fy).toInt) - (finite sr er fr).toInt ≤ pow1020 := by
  have hp := pow1020_pos
  have hp1 := pow1020_lt_one
  obtain ⟨sr, er, fr, s, hadd, hdvd, h1, h2, hs, hs1, hs2⟩ :=
    add_finite_spec sx sy ex ey fx fy (by omega) (by omega)
  obtain ⟨hd0, hdone, hdlo, hdhi⟩ := spacing_facts hs
  have hdone1 : ((2 ^ s : Nat) : Int) ∣ (oneUnits : Int) := Int.natCast_dvd_natCast.mpr hdone
  have hdone2 : ((2 ^ s : Nat) : Int) ∣ -(oneUnits : Int) := (Int.dvd_neg).mpr hdone1
  refine ⟨sr, er, fr, hadd, ?_⟩
  generalize (finite sx ex fx).toInt + (finite sy ey fy).toInt = v at *
  generalize (finite sr er fr).toInt = R at *
  generalize hD : 2 ^ s = D at *
  by_cases hbig : (oneUnits : Int) ≤ v
  · have hs22 := hs2 (Or.inl hbig)
    have hD4 := hdhi hs22
    have hge := nearest_ge hdvd hdone1 h2 hbig
    have hle : R ≤ (oneUnits : Int) := by
      by_contra hcon
      push_neg at hcon
      have : (D : Int) ≤ R - oneUnits :=
        Int.le_of_dvd (by omega) (Int.dvd_sub hdvd hdone1)
      omega
    omega
  · by_cases hsmall : v ≤ -(oneUnits : Int)
    · have hs22 := hs2 (Or.inr hsmall)
      have hD4 := hdhi hs22
      have hle := nearest_le hdvd hdone2 h1 hsmall
      have hge : -(oneUnits : Int) ≤ R := by
        by_contra hcon
        push_neg at hcon
        have : (D : Int) ≤ -(oneUnits : Int) - R :=
          Int.le_of_dvd (by omega) (Int.dvd_sub hdone2 hdvd)
        omega
      omega
    · have hs21 := hs1 (by omega) (by omega)
      have hD2 := hdlo hs21
      have hle := nearest_le hdvd hdone1 h1 (by omega)
      have hge := nearest_ge hdvd hdone2 h2 (by omega)
      omega


theorem toInt_c01_bits :
    (finite false ⟨1019, by decide⟩ ⟨0x999999999999a, by decide⟩).toInt = (tenthUnits : Int) := by
  decide!

theorem toInt_neg_c01_bits :
    (finite true ⟨1019, by decide⟩ ⟨0x999999999999a, by decide⟩).toInt = -(tenthUnits : Int) := by
  decide!

theorem neg_c01 : neg c01 = finite true ⟨1019, by decide⟩ ⟨0x999999999999a, by decide⟩ := by
  decide!

theorem ninth_lt_one : ninthUnits < oneUnits := by decide!

theorem ninth_tenth_le : ninthUnits + tenthUnits ≤ oneUnits + pow1020 := by decide!

theorem inRange_of_toInt {s : Bool} {e : Fin 2047} {f : Fin (2 ^ 52)}
    (h1 : -(oneUnits : Int) ≤ (finite s e f).toInt) (h2 : (finite s e f).toInt ≤ (oneUnits : Int)) :
    InRange (finite s e f) := by
  unfold InRange le
  rw [isNaN_cm1, isNaN_c1, toInt_cm1, toInt_c1]
  simp only [isNaN, Bool.not_false, Bool.true_and, decide_eq_true_eq]
  exact ⟨h1, h2⟩

/-- Below the bound the two clamps do nothing: for `-1.0 <= l <= 0.9` the pair 'w', 'x'
returns the double `(l + 0.1) - 0.1`, and that is within `2^-53` of `l`. -/
theorem w_x_below (l : Double) (hl : InRange l) (h9 : le l c09 = true) :
    clamp (add l c01) = add l c01 ∧
    clamp (sub (add l c01) c01) = sub (add l c01) c01 ∧
    (sub (add l c01) c01).toInt - l.toInt ≤ (pow1021 : Int) ∧
    l.toInt - (sub (add l c01) c01).toInt ≤ (pow1021 : Int) := by
  have t9 := toInt_c09
  have t1 := toInt_c1
  have tm1 := toInt_cm1
  have hinf := one_lt_inf
  have hnt := ninth_tenth_le
  have hn1 := ninth_lt_one
  have hp := pow1020_pos
  have hp21 := pow1021_eq
  have hts := tenth_small
  obtain ⟨hlo, -⟩ := hl
  simp only [le, isNaN_c09, isNaN_cm1, Bool.not_false, Bool.true_and, Bool.and_true,
    Bool.and_eq_true, Bool.not_eq_true', decide_eq_true_eq, t9, tm1] at h9 hlo
  cases l with
  | nan => simp [isNaN] at h9
  | inf b => cases b <;> simp only [toInt] at h9 hlo <;> omega
  | finite sl el fl =>
    obtain ⟨-, h9⟩ := h9
    obtain ⟨-, hlo⟩ := hlo
    have tb := toInt_c01_bits
    have tnb := toInt_neg_c01_bits
    obtain ⟨s1, e1, f1, hadd1, hr1lo, hr1hi, herr1a, herr1b⟩ :=
      add_near sl false el ⟨1019, by decide⟩ fl ⟨0x999999999999a, by decide⟩
        (by omega) (by omega)
    obtain ⟨s2, e2, f2, hadd2, hr2lo, hr2hi, herr2a, herr2b⟩ :=
      add_near s1 true e1 ⟨1019, by decide⟩ f1 ⟨0x999999999999a, by decide⟩
        (by omega) (by omega)
    rw [sub, neg_c01, c01_eq, hadd1, hadd2]
    refine ⟨clamp_of_inRange (inRange_of_toInt hr1lo hr1hi),
      clamp_of_inRange (inRange_of_toInt hr2lo hr2hi), ?_, ?_⟩ <;> omega

/-! ## The switch, key by key -/

theorem applyKey_w (s : State) : applyKey 119 s = { s with linear_ := add s.linear_ c01 } := by
  simp only [applyKey, if_true]

theorem applyKey_x (s : State) : applyKey 120 s = { s with linear_ := sub s.linear_ c01 } := by
  simp [applyKey]

theorem applyKey_a (s : State) : applyKey 97 s = { s with angular_ := add s.angular_ c01 } := by
  simp [applyKey]

theorem applyKey_d (s : State) : applyKey 100 s = { s with angular_ := sub s.angular_ c01 } := by
  simp [applyKey]

theorem applyKey_s (s : State) : applyKey 115 s = { linear_ := c0, angular_ := c0 } := by
  simp [applyKey]

theorem applyKey_other {c : Int} (s : State) (hw : c ≠ 119) (hx : c ≠ 120) (ha : c ≠ 97)
    (hd : c ≠ 100) (hs : c ≠ 115) : applyKey c s = s := by
  simp [applyKey, hw, hx, ha, hd, hs]

theorem clamp_c0 : clamp c0 = c0 := by decide!

theorem process_keyboard_other {c : Int} {s : State} (hw : c ≠ 119) (hx : c ≠ 120)
    (ha : c ≠ 97) (hd : c ≠ 100) (hs : c ≠ 115) (hl : InRange s.linear_)
    (hang : InRange s.angular_) : process_keyboard c s = s := by
  simp only [process_keyboard, applyKey_other s hw hx ha hd hs, clamp_of_inRange hl,
    clamp_of_inRange hang]

theorem stop_key_resets (s : State) :
    process_keyboard 115 s = { linear_ := c0, angular_ := c0 } := by
  simp only [process_keyboard, applyKey_s, clamp_c0]

theorem runKeys_other {s : State} (keys : List Int) (hl : InRange s.linear_)
    (ha : InRange s.angular_)
    (hk : ∀ k ∈ keys, k ≠ 119 ∧ k ≠ 120 ∧ k ≠ 97 ∧ k ≠ 100 ∧ k ≠ 115) :
    runKeys s keys = s := by
  induction keys with
  | nil => simp only [runKeys, List.foldl_nil]
  | cons k ks ih =>
    have hk0 := hk k (List.mem_cons_self k ks)
    have step : process_keyboard k s = s :=
      process_keyboard_other hk0.1 hk0.2.1 hk0.2.2.1 hk0.2.2.2.1 hk0.2.2.2.2 hl ha
    have ih1 := ih (fun k1 h1 => hk k1 (List.mem_cons_of_mem k h1))
    simp only [runKeys, List.foldl_cons, step] at ih1 ⊢
    exact ih1

/-- NaN is the one value the clamp lets through: `std::min(NaN, 1.0)` and
`std::max(NaN, -1.0)` return their first argument.  No run produces a NaN member. -/
theorem clamp_nan : clamp nan = nan := by decide!

/-- C1. From every state the node can hold (any state reached from the initial state
`(0.0, 0.0)` by a sequence of key codes) and for every key code, 'no key' included, the
state after one `process_keyboard` step has linear and angular within `[-1.0, 1.0]`;
hence every state reached from the initial state lies in `[-1.0, 1.0] x [-1.0, 1.0]`.
Member by member the step bound holds from any prior value at all that is not NaN, and
after 's' from any prior value whatever. -/
theorem range_invariant (s : State) (c : Int) (pre keys : List Int) :
    (InRange (process_keyboard c (runKeys init pre)).linear_ ∧
      InRange (process_keyboard c (runKeys init pre)).angular_) ∧
    (InRange (runKeys init keys).linear_ ∧ InRange (runKeys init keys).angular_) ∧
    (s.linear_ ≠ nan ∨ c = 115 → InRange (process_keyboard c s).linear_) ∧
    (s.angular_ ≠ nan ∨ c = 115 → InRange (process_keyboard c s).angular_) := by
  have hpre := runKeys_init_inRange pre
  refine ⟨process_keyboard_inRange c (inRange_ne_nan hpre.1) (inRange_ne_nan hpre.2),
    runKeys_init_inRange keys, fun h => ?_, fun h => ?_⟩
  · rcases h with h | h
    · rw [process_keyboard_linear]
      exact clamp_inRange (applyKey_linear_ne_nan c h)
    · subst h
      rw [stop_key_resets]
      exact inRange_c0
  · rcases h with h | h
    · rw [process_keyboard_angular]
      exact clamp_inRange (applyKey_angular_ne_nan c h)
    · subst h
      rw [stop_key_resets]
      exact inRange_c0

/-- Witness for C1: the out-of-range state `(+inf, 2.0)` with key 'w', the state
`(NaN, NaN)` with key 's', and the key sequences 'w', 'a' then 'x', and 'w', 'a', 'x', 'x'. -/
theorem range_invariant_witness :
    (far.linear_ ≠ nan ∧ InRange (process_keyboard 119 far).linear_) ∧
    (far.angular_ ≠ nan ∧ InRange (process_keyboard 119 far).angular_) ∧
    InRange (process_keyboard 115 lost).linear_ ∧
    InRange (process_keyboard 120 (runKeys init [119, 97])).linear_ ∧
    InRange (runKeys init [119, 97, 120, 120]).angular_ :=
  ⟨⟨by decide!, (range_invariant far 119 [] []).2.2.1 (Or.inl (by decide!))⟩,
    ⟨by decide!, (range_invariant far 119 [] []).2.2.2 (Or.inl (by decide!))⟩,
    (range_invariant lost 115 [] []).2.2.1 (Or.inr rfl),
    (range_invariant far 120 [119, 97] []).1.1,
    (range_invariant far 119 [] [119, 97, 120, 120]).2.1.2⟩

/-- C2. From a state with both members in `[-1.0, 1.0]`, one `process_keyboard` step
with 'w' gives `(clamp(linear + 0.1), angular)`, with 'x' `(clamp(linear - 0.1), angular)`,
with 'a' `(linear, clamp(angular + 0.1))`, with 'd' `(linear, clamp(angular - 0.1))`,
where `clamp(v) = max(min(v, 1.0), -1.0)`. -/
theorem transition_table (s : State) (hl : InRange s.linear_) (ha : InRange s.angular_) :
    process_keyboard 119 s = { linear_ := clamp (add s.linear_ c01), angular_ := s.angular_ } ∧
    process_keyboard 120 s = { linear_ := clamp (sub s.linear_ c01), angular_ := s.angular_ } ∧
    process_keyboard 97 s = { linear_ := s.linear_, angular_ := clamp (add s.angular_ c01) } ∧
    process_keyboard 100 s = { linear_ := s.linear_, angular_ := clamp (sub s.angular_ c01) } ∧
    ∀ v, clamp v = Double.max (Double.min v c1) cm1 := by
  refine ⟨?_, ?_, ?_, ?_, fun v => ?_⟩
  · simp only [process_keyboard, applyKey_w, clamp_of_inRange ha]
  · simp only [process_keyboard, applyKey_x, clamp_of_inRange ha]
  · simp only [process_keyboard, applyKey_a, clamp_of_inRange hl]
  · simp only [process_keyboard, applyKey_d, clamp_of_inRange hl]
  · simp only [clamp]

/-- Witness for C2: the state `(0.2, 0.9)`. -/
theorem transition_table_witness :
    (InRange sample.linear_ ∧ InRange sample.angular_) ∧
    process_keyboard 119 sample =
      { linear_ := clamp (add sample.linear_ c01), angular_ := sample.angular_ } :=
  ⟨by decide!, (transition_table sample (by decide!) (by decide!)).1⟩

/-- C3. For every velocity state `S` (both members within `[-1.0, 1.0]`, as in every state
the node can hold), one `process_keyboard` step with a key code that is none of 'w', 'x',
'a', 'd', 's' (the "no key" code included) yields `S` unchanged, and so does any number
of such steps; in particular this holds from every state reached from the initial one. -/
theorem unrecognized_identity (s : State) (c : Int) (keys pre : List Int)
    (hl : InRange s.linear_) (ha : InRange s.angular_)
    (hc : c ≠ 119 ∧ c ≠ 120 ∧ c ≠ 97 ∧ c ≠ 100 ∧ c ≠ 115)
    (hk : ∀ k ∈ keys, k ≠ 119 ∧ k ≠ 120 ∧ k ≠ 97 ∧ k ≠ 100 ∧ k ≠ 115) :
    process_keyboard c s = s ∧ runKeys s keys = s ∧
    process_keyboard c (runKeys init pre) = runKeys init pre ∧
    runKeys (runKeys init pre) keys = runKeys init pre :=
  ⟨process_keyboard_other hc.1 hc.2.1 hc.2.2.1 hc.2.2.2.1 hc.2.2.2.2 hl ha,
    runKeys_other keys hl ha hk,
    process_keyboard_other hc.1 hc.2.1 hc.2.2.1 hc.2.2.2.1 hc.2.2.2.2
      (runKeys_init_inRange pre).1 (runKeys_init_inRange pre).2,
    runKeys_other keys (runKeys_init_inRange pre).1 (runKeys_init_inRange pre).2 hk⟩

/-- Witness for C3: the state `(0.2, 0.9)`, no key, then 'q', no key, 'W'; and the same
after 'w', 'a'. -/
theorem unrecognized_identity_witness :
    (InRange sample.linear_ ∧ InRange sample.angular_) ∧
    process_keyboard (-1) sample = sample ∧ runKeys sample [113, -1, 87] = sample ∧
    process_keyboard (-1) (runKeys init [119, 97]) = runKeys init [119, 97] ∧
    runKeys (runKeys init [119, 97]) [113, -1, 87] = runKeys init [119, 97] :=
  ⟨by decide!, unrecognized_identity sample (-1) [113, -1, 87] [119, 97] (by decide!)
    (by decide!) (by decide) (by decide)⟩

/-- C4. From every prior state, one `process_keyboard` step with 's' yields exactly
`linear = 0.0` and `angular = 0.0`. -/
theorem force_stop (s : State) : process_keyboard 115 s = { linear_ := c0, angular_ := c0 } := by
  simp only [process_keyboard, applyKey_s, clamp_c0]

/-- C5. Starting from `(0.0, 0.0)`, after `n` consecutive 'w' steps the linear value never
exceeds `1.0`, is non-decreasing in `n`, equals `1.0` from the eleventh press on (so it
reaches `1.0` and stays there), is `1.0` after 15 presses, and angular is `0.0` throughout. -/
theorem w_saturation (m n : Nat) :
    le (runKeys init (List.replicate n 119)).linear_ c1 = true ∧
    (m ≤ n → le (runKeys init (List.replicate m 119)).linear_
      (runKeys init (List.replicate n 119)).linear_ = true) ∧
    (11 ≤ n → (runKeys init (List.replicate n 119)).linear_ = c1) ∧
    (runKeys init (List.replicate 15 119)).linear_ = c1 ∧
    (runKeys init (List.replicate n 119)).angular_ = c0 := by
  refine ⟨(runKeys_init_inRange _).1.2, w_monotone m n, fun h => ?_, ?_, w_angular n⟩
  · rw [w_saturated n h]
  · rw [w_saturated 15 (by decide)]

/-- Witness for C5: two presses against seven, and seven against twelve. -/
theorem w_saturation_witness :
    le (runKeys init (List.replicate 2 119)).linear_
      (runKeys init (List.replicate 7 119)).linear_ = true ∧
    (runKeys init (List.replicate 12 119)).linear_ = c1 :=
  ⟨(w_saturation 2 7).2.1 (by decide), (w_saturation 7 12).2.2.1 (by decide)⟩

/-- C6. From any state whose angular member equals `0.0` and whose linear member is in
`[-1.0, 1.0]`, a step with 'a' followed by a step with 'd' brings angular back to `0.0`
and leaves linear unchanged. -/
theorem a_then_d (s : State) (hl : InRange s.linear_) (ha : feq s.angular_ c0 = true) :
    (process_keyboard 100 (process_keyboard 97 s)).angular_ = c0 ∧
    (process_keyboard 100 (process_keyboard 97 s)).linear_ = s.linear_ := by
  obtain ⟨b, hb⟩ := eq_zero_of_feq ha
  have h1 : process_keyboard 97 s = { linear_ := s.linear_, angular_ := c01 } := by
    simp only [process_keyboard, applyKey_a, clamp_of_inRange hl, hb, zero_add_c01, clamp_c01]
  rw [h1]
  simp only [process_keyboard, applyKey_d, clamp_of_inRange hl, c01_sub_c01, clamp_c0,
    and_self]

/-- Witness for C6: the state `(0.9, 0.0)`. -/
theorem a_then_d_witness :
    (InRange zeroTurn.linear_ ∧ feq zeroTurn.angular_ c0 = true) ∧
    (process_keyboard 100 (process_keyboard 97 zeroTurn)).angular_ = c0 ∧
    (process_keyboard 100 (process_keyboard 97 zeroTurn)).linear_ = zeroTurn.linear_ :=
  ⟨by decide!, a_then_d zeroTurn (by decide!) (by decide!)⟩

/-- C7. For every prior node state, clock reading and key code, one `timer_callback` cycle
appends exactly one message to what was published; its `twist.linear.x` and
`twist.angular.z` are the velocity members after that cycle's key has been applied and
clamped, its frame identifier is "base_link" and its stamp the clock reading. -/
theorem cycle_snapshot (n : Node) (now : Nat) (c : Int) :
    (timer_callback now c n).vel = process_keyboard c n.vel ∧
    ∃ m : TwistStamped, (timer_callback now c n).published = n.published ++ [m] ∧
      m.twist.linear.x = (process_keyboard c n.vel).linear_ ∧
      m.twist.angular.z = (process_keyboard c n.vel).angular_ ∧
      m.header.frame_id = "base_link" ∧ m.header.stamp = now := by
  refine ⟨timer_callback_vel now c n, _, timer_callback_published now c n, ?_, ?_, ?_, ?_⟩ <;>
    simp only

/-- C8. From the initial node, three consecutive cycles with keys 'w', 'w', 'a' publish
exactly three messages, with (linear, angular) equal to `(0.1, 0.0)`, `(0.2, 0.0)`,
`(0.2, 0.1)` in that order. -/
theorem scenario_w_w_a (t1 t2 t3 : Nat) :
    (runCycles Node.init [(t1, 119), (t2, 119), (t3, 97)]).published.map
        (fun m => (m.twist.linear.x, m.twist.angular.z)) =
      [(c01, c0), (c02, c0), (c02, c01)] := by
  simp only [runCycles_cons, runCycles_nil, timer_callback_published, timer_callback_vel,
    Node.init, w_once, w_twice, w_w_a, List.nil_append, List.cons_append, List.map_cons,
    List.map_nil]

/-- C9. For every number of timer cycles from the initial node with no key pressed in
any of them (`getch()` returns `ERR = -1`), as many messages are published as there were
cycles, and every one of them has linear `0.0` and angular `0.0`. -/
theorem idle_cadence (ts : List Nat) :
    (runCycles Node.init (ts.map (fun t => (t, (-1 : Int))))).published.length = ts.length ∧
    ∀ m ∈ (runCycles Node.init (ts.map (fun t => (t, (-1 : Int))))).published,
      m.twist.linear.x = c0 ∧ m.twist.angular.z = c0 := by
  rw [runCycles_idle ts Node.init (by simp only [Node.init])]
  constructor
  · simp only [Node.init, List.nil_append, List.length_map]
  · intro m hm
    simp only [Node.init, List.nil_append, List.mem_map] at hm
    obtain ⟨t, -, rfl⟩ := hm
    exact ⟨by simp only, by simp only⟩

/-- C10, as stated, fails: the state `(0.2, 0.0)`, reached from the initial state by two 'w'
presses, has linear `<= 0.9`, yet 'w' then 'x' does not restore it; the pair returns a
linear value strictly above `0.2` (`0.2 + 0.1` rounds up, `- 0.1` does not undo it). -/
theorem wx_cancel_counterexample :
    runKeys init [119, 119] = ⟨c02, c0⟩ ∧
    (InRange c02 ∧ InRange c0) ∧ le c02 c09 = true ∧
    process_keyboard 120 (process_keyboard 119 ⟨c02, c0⟩) ≠ ⟨c02, c0⟩ ∧
    lt c02 (process_keyboard 120 (process_keyboard 119 ⟨c02, c0⟩)).linear_ = true := by
  decide!

/-- C10, amended. For every state with linear and angular in `[-1.0, 1.0]`, a 'w' step
followed by an 'x' step leaves angular unchanged.  If linear `<= 0.9` neither clamp acts:
the pair yields the double `(linear + 0.1) - 0.1`, which is within `2^-53` of linear.
If linear is above `0.9` (`1.0` in particular) the pair yields `0.9`, because the clamp
discards the increment before the decrement is applied.  Hence the pair restores the
original state if and only if linear `<= 0.9` and `(linear + 0.1) - 0.1` is linear again
in double arithmetic. -/
theorem wx_cancel (s : State) (hl : InRange s.linear_) (ha : InRange s.angular_) :
    (process_keyboard 120 (process_keyboard 119 s)).angular_ = s.angular_ ∧
    (le s.linear_ c09 = true →
      (process_keyboard 120 (process_keyboard 119 s)).linear_ = sub (add s.linear_ c01) c01 ∧
      (process_keyboard 120 (process_keyboard 119 s)).linear_.toInt - s.linear_.toInt
        ≤ (pow1021 : Int) ∧
      s.linear_.toInt - (process_keyboard 120 (process_keyboard 119 s)).linear_.toInt
        ≤ (pow1021 : Int)) ∧
    (lt c09 s.linear_ = true → (process_keyboard 120 (process_keyboard 119 s)).linear_ = c09) ∧
    (s.linear_ = c1 → (process_keyboard 120 (process_keyboard 119 s)).linear_ = c09) ∧
    (process_keyboard 120 (process_keyboard 119 s) = s ↔
      le s.linear_ c09 = true ∧ sub (add s.linear_ c01) c01 = s.linear_) := by
  have hang : (process_keyboard 120 (process_keyboard 119 s)).angular_ = s.angular_ := by
    simp only [process_keyboard, applyKey_w, applyKey_x, clamp_of_inRange ha]
  have above : lt c09 s.linear_ = true →
      (process_keyboard 120 (process_keyboard 119 s)).linear_ = c09 := by
    intro h
    simp only [process_keyboard, applyKey_w, applyKey_x, clamp_add_above s.linear_ h hl.2,
      clamp_one_sub_tenth]
  have below : le s.linear_ c09 = true →
      (process_keyboard 120 (process_keyboard 119 s)).linear_ =
        sub (add s.linear_ c01) c01 := by
    intro h
    obtain ⟨h1, h2, -, -⟩ := w_x_below s.linear_ hl h
    simp only [process_keyboard, applyKey_w, applyKey_x, h1, h2]
  refine ⟨hang, fun h => ?_, above, fun h1 => above (by rw [h1]; exact lt_c09_c1), ?_, ?_⟩
  · obtain ⟨-, -, h3, h4⟩ := w_x_below s.linear_ hl h
    rw [below h]
    exact ⟨rfl, h3, h4⟩
  · intro hres
    have hle : le s.linear_ c09 = true := by
      cases hle : le s.linear_ c09 with
      | true => rfl
      | false =>
        have hlt := lt_of_not_le (inRange_ne_nan hl) c09_ne_nan hle
        have h9 := above hlt
        rw [hres] at h9
        rw [h9, lt_irrefl_double] at hlt
        exact Bool.noConfusion hlt
    refine ⟨hle, ?_⟩
    have hb := below hle
    rw [hres] at hb
    exact hb.symm
  · rintro ⟨hle, heq⟩
    have hb := below hle
    rw [heq] at hb
    cases hs : process_keyboard 120 (process_keyboard 119 s) with
    | mk l a =>
      rw [hs] at hb hang
      simp only at hb hang
      rw [hb, hang]

/-- Witness for C10 (amended): the state `(1.0, 0.2)`, above `0.9`; the state `(0.1, 0.0)`,
which the pair restores; and the state `(0.2, 0.9)`, below `0.9`, which it does not. -/
theorem wx_cancel_witness :
    ((InRange top.linear_ ∧ InRange top.angular_) ∧ lt c09 top.linear_ = true ∧
      (process_keyboard 120 (process_keyboard 119 top)).linear_ = c09) ∧
    ((InRange slow.linear_ ∧ InRange slow.angular_) ∧
      (le slow.linear_ c09 = true ∧ sub (add slow.linear_ c01) c01 = slow.linear_) ∧
      process_keyboard 120 (process_keyboard 119 slow) = slow) ∧
    ((InRange sample.linear_ ∧ InRange sample.angular_) ∧ le sample.linear_ c09 = true ∧
      (process_keyboard 120 (process_keyboard 119 sample)).linear_ =
        sub (add sample.linear_ c01) c01 ∧
      lt sample.linear_ (sub (add sample.linear_ c01) c01) = true) :=
  ⟨⟨by decide!, by decide!,
      (wx_cancel top (by decide!) (by decide!)).2.2.1 (by decide!)⟩,
    ⟨by decide!, by decide!,
      (wx_cancel slow (by decide!) (by decide!)).2.2.2.2.mpr (by decide!)⟩,
    ⟨by decide!, by decide!,
      ((wx_cancel sample (by decide!) (by decide!)).2.1 (by decide!)).1, by decide!⟩⟩

end Teleop
